import Mathlib

/-!
Verification of the perforation filter (`inkcut/device/filters/perforation.py`).

The filter rewrites a continuous cutting polyline into alternating cut and
bridge segments measured by arc length.  Geometry measurement
(`QPainterPath.length` / `pointAtPercent`) is an external capability, so it is
modelled abstractly by a `PathM` record: a total arc length and a fallible
point-at-percent sampler (a `none` result models a failing geometry backend,
which Python surfaces as a swallowed exception inside
`extract_path_segment`).  All arithmetic is exact (`ℚ`); the two `while`
loops of `apply_perforation` are modelled by fuel-indexed structural
recursion, with stabilization lemmas showing the standard fuel is enough.
-/

namespace Perforation

/-- A 2D point, as used by `QPointF` (value semantics). -/
abbrev Point := ℚ × ℚ

/-- A polyline (`QPolygonF`): an ordered list of points. -/
abbrev Polyline := List Point

/-- The external path-measurement capability built from one polyline
(`QPainterPath` in the source): its total arc length and the
point-at-percent sampler.  `pointAt` returning `none` models a failure of
the geometry backend (`pointAtPercent` raising, caught by the source's
`except` clause in `extract_path_segment`). -/
structure PathM where
  length : ℚ
  pointAt : ℚ → Option Point

/-- The perforation configuration (`PerforationConfig`): cut length, bridge
length, and whether traversal begins in the cutting phase. -/
structure PerforationConfig where
  cut_length : ℚ
  bridge_length : ℚ
  start_with_cut : Bool

/-- `PerforationFilter.extract_path_segment`: the chord between the points at
arc-length distances `s` and `e`.  Mirrors the source exactly:
`None` when `s ≥ e`, `None` when `s ≥ total_length`, otherwise the two-point
polygon through `pointAtPercent (s / L)` and `pointAtPercent (min (e / L) 1)`
(`None` if the sampler fails). -/
def extract_path_segment (pm : PathM) (s e : ℚ) : Option Polyline :=
  if e ≤ s then none
  else if pm.length ≤ s then none
  else
    match pm.pointAt (s / pm.length), pm.pointAt (min (e / pm.length) 1) with
    | some sp, some ep => some [sp, ep]
    | _, _ => none

/-- The end-bridge precomputation loop of `apply_perforation` (source lines
179-188): starting from `remaining` in phase `ph` (`true` = cutting),
repeatedly consume `min (phase_length, remaining)` and flip, returning the
phase in effect when the remaining length reaches zero.  `fuel` bounds the
number of iterations (the Python `while` loop has no such bound; for the
parameters reachable through `apply_to_polypath` the standard fuel is proven
sufficient below). -/
def simFinal (C B : ℚ) : Nat → ℚ → Bool → Bool
  | 0, _, ph => ph
  | fuel + 1, remaining, ph =>
    if 0 < remaining then
      let r := remaining - min (if ph then C else B) remaining
      if r ≤ 0 then ph else simFinal C B fuel r (!ph)
    else ph

/-- The emission loop of `apply_perforation` (source lines 194-211):
while `current < eff`, in the cutting phase extract and emit the chord from
`current` to `min (current + C) eff` (discarded if extraction fails or the
result has fewer than 2 points), in the bridge phase just advance by `B`
(capped at `eff`), flipping the phase each iteration.  Returns the emitted
segments in order. -/
def emitLoop (pm : PathM) (C B eff : ℚ) : Nat → ℚ → Bool → List Polyline
  | 0, _, _ => []
  | fuel + 1, current, cutting =>
    if current < eff then
      if cutting then
        let e := min (current + C) eff
        let rest := emitLoop pm C B eff fuel e false
        if current < e then
          match extract_path_segment pm current e with
          | some seg => if 2 ≤ seg.length then seg :: rest else rest
          | none => rest
        else rest
      else
        emitLoop pm C B eff fuel (min (current + B) eff) true
    else []

/-- Ghost mirror of `emitLoop` recording, instead of the extracted chords,
the arc-length interval `(start, end)` of every segment the loop emits
(an interval is listed exactly when the loop reaches the extraction call for
it, i.e. when `current < e`). -/
def emitSpans (C B eff : ℚ) : Nat → ℚ → Bool → List (ℚ × ℚ)
  | 0, _, _ => []
  | fuel + 1, current, cutting =>
    if current < eff then
      if cutting then
        let e := min (current + C) eff
        if current < e then (current, e) :: emitSpans C B eff fuel e false
        else emitSpans C B eff fuel e false
      else
        emitSpans C B eff fuel (min (current + B) eff) true
    else []

/-- `PerforationFilter.apply_perforation` on one polyline, parameterized by
the measurement capability `pm` for that polyline and by loop fuel.
Mirrors the source branch for branch: fewer than 2 points passes the
polyline through; a path no longer than one cut+bridge period gets the
short-path policy (lines 140-162); otherwise the end-bridge precomputation
chooses the effective length and the emission loop runs, falling back to
the unmodified polyline when nothing was emitted (line 213). -/
def apply_perforation (pm : PathM) (poly : Polyline) (cut_length bridge_length : ℚ)
    (swc : Bool) (fuel : Nat) : List Polyline :=
  if poly.length < 2 then [poly]
  else
    let total_length := pm.length
    let segment_length := cut_length + bridge_length
    if total_length ≤ segment_length then
      if total_length ≤ cut_length then
        if swc then
          if bridge_length < total_length then
            let cut_end := total_length - bridge_length
            if 0 < cut_end then
              match extract_path_segment pm 0 cut_end with
              | some p => [p]
              | none => []
            else []
          else []
        else []
      else
        match extract_path_segment pm 0 cut_length with
        | some p => [p]
        | none => []
    else
      let final_is_cutting := simFinal cut_length bridge_length fuel total_length swc
      let effective_length :=
        if segment_length < total_length then
          if final_is_cutting then
            if bridge_length < total_length then total_length - bridge_length
            else total_length
          else total_length
        else total_length
      let segments := emitLoop pm cut_length bridge_length effective_length fuel 0 swc
      if segments = [] then [poly] else segments

/-- Ghost mirror of `apply_perforation` listing the arc-length interval of
every segment whose extraction the source attempts, in emission order
(same branch structure, with `emitSpans` in place of `emitLoop`; the
pass-through and fallback branches contribute no interval). -/
def apply_perforationSpans (pm : PathM) (poly : Polyline) (cut_length bridge_length : ℚ)
    (swc : Bool) (fuel : Nat) : List (ℚ × ℚ) :=
  if poly.length < 2 then []
  else
    let total_length := pm.length
    let segment_length := cut_length + bridge_length
    if total_length ≤ segment_length then
      if total_length ≤ cut_length then
        if swc then
          if bridge_length < total_length then
            let cut_end := total_length - bridge_length
            if 0 < cut_end then [(0, cut_end)] else []
          else []
        else []
      else [(0, cut_length)]
    else
      let final_is_cutting := simFinal cut_length bridge_length fuel total_length swc
      let effective_length :=
        if segment_length < total_length then
          if final_is_cutting then
            if bridge_length < total_length then total_length - bridge_length
            else total_length
          else total_length
        else total_length
      emitSpans cut_length bridge_length effective_length fuel 0 swc

/-- Standard fuel for the two loops of `apply_perforation`: comfortably more
than the number of iterations either loop can perform when it terminates
(each full cut+bridge period advances by at least `B`, respectively
consumes at least `B`, for `B > 0`). -/
def stdFuel (pm : PathM) (C B : ℚ) : Nat :=
  2 * ((Int.ceil (pm.length / B)).toNat + (Int.ceil (pm.length / C)).toNat) + 8

/-- `PerforationSegmenter.segment`: `apply_perforation` at the standard fuel. -/
def segment (pm : PathM) (poly : Polyline) (cfg : PerforationConfig) : List Polyline :=
  apply_perforation pm poly cfg.cut_length cfg.bridge_length cfg.start_with_cut
    (stdFuel pm cfg.cut_length cfg.bridge_length)

/-- The arc-length intervals of the segments `segment` emits. -/
def segmentSpans (pm : PathM) (poly : Polyline) (cfg : PerforationConfig) : List (ℚ × ℚ) :=
  apply_perforationSpans pm poly cfg.cut_length cfg.bridge_length cfg.start_with_cut
    (stdFuel pm cfg.cut_length cfg.bridge_length)

/-- `PerforationFilter.apply_to_polypath` with a fuel bump `extra` for the
inner loops (used to state that the result does not depend on giving the
loops more fuel than the standard amount).  Mirrors the source: if both
lengths are non-positive, or the bridge length is non-positive, the input
is returned unchanged; otherwise each polygon with fewer than 2 points is
passed through and every other polygon is replaced by its perforation
segments, preserving order.  `measure` supplies the measurement capability
for each polyline (`QPainterPath` construction, lines 131-134). -/
def apply_to_polypathFuel (measure : Polyline → PathM) (polypath : List Polyline)
    (cut_length bridge_length : ℚ) (swc : Bool) (extra : Nat) : List Polyline :=
  if cut_length ≤ 0 ∧ bridge_length ≤ 0 then polypath
  else if bridge_length ≤ 0 then polypath
  else
    polypath.flatMap fun poly =>
      if poly.length < 2 then [poly]
      else apply_perforation (measure poly) poly cut_length bridge_length swc
        (stdFuel (measure poly) cut_length bridge_length + extra)

/-- `PerforationFilter.apply_to_polypath` (the `BatchApplier` contract). -/
def apply_to_polypath (measure : Polyline → PathM) (polypath : List Polyline)
    (cut_length bridge_length : ℚ) (swc : Bool) : List Polyline :=
  apply_to_polypathFuel measure polypath cut_length bridge_length swc 0

/-- The measurement capability of a horizontal straight line from `(0,0)` to
`(len, 0)`: total length `len`, point at percent `t` is `(len * t, 0)`. -/
def lineM (len : ℚ) : PathM :=
  ⟨len, fun t => some (len * t, 0)⟩

/-- A measurement capability whose sampler always fails (a broken geometry
backend): used to exercise the failure policy. -/
def failM (len : ℚ) : PathM :=
  ⟨len, fun _ => none⟩

end Perforation

namespace Perforation

/-- A successful extraction always yields a two-point chord. -/
lemma extract_path_segment_length {pm : PathM} {s e : ℚ} {q : Polyline}
    (h : extract_path_segment pm s e = some q) : q.length = 2 := by
  unfold extract_path_segment at h
  split at h
  · exact absurd h (by simp)
  · split at h
    · exact absurd h (by simp)
    · split at h
      · cases h; rfl
      · exact absurd h (by simp)

/-- With a total (never-failing) sampler, extraction succeeds exactly as the
source computes it whenever the interval is nonempty and starts before the
end of the path. -/
lemma extract_path_segment_honest {pm : PathM} {f : ℚ → Point}
    (hf : ∀ t, pm.pointAt t = some (f t)) {s e : ℚ} (hse : s < e) (hsl : s < pm.length) :
    extract_path_segment pm s e = some [f (s / pm.length), f (min (e / pm.length) 1)] := by
  unfold extract_path_segment
  rw [if_neg (not_le.mpr hse), if_neg (not_le.mpr hsl), hf, hf]

/-- With a sampler that always fails, extraction always fails. -/
lemma extract_path_segment_fail {pm : PathM} (hfail : ∀ t, pm.pointAt t = none)
    (s e : ℚ) : extract_path_segment pm s e = none := by
  unfold extract_path_segment
  split
  · rfl
  · split
    · rfl
    · rw [hfail, hfail]

/-- The emission loop emits nothing once the cursor has reached the
effective length. -/
lemma emitSpans_nil_of_le {C B eff : ℚ} (fuel : Nat) {cur : ℚ} (h : eff ≤ cur) (ph : Bool) :
    emitSpans C B eff fuel cur ph = [] := by
  cases fuel with
  | zero => rfl
  | succ n =>
    simp only [emitSpans]
    rw [if_neg (not_lt.mpr h)]

/-- With a non-positive cut length the emission loop never emits: the cut
phase cannot advance the cursor, and only bridge phases move it. -/
lemma emitLoop_nil_of_cut_nonpos (pm : PathM) {C B eff : ℚ} (hC : C ≤ 0) :
    ∀ fuel (cur : ℚ) (ph : Bool), emitLoop pm C B eff fuel cur ph = [] := by
  intro fuel
  induction fuel with
  | zero => intro cur ph; rfl
  | succ n ih =>
    intro cur ph
    simp only [emitLoop]
    split
    · rename_i hcur
      split
      · have : ¬ cur < min (cur + C) eff :=
          not_lt.mpr (le_trans (min_le_left _ _) (by linarith))
        rw [if_neg this]
        exact ih _ _
      · exact ih _ _
    · rfl

end Perforation

namespace Perforation

/-- The emission loop produces exactly the successful extractions of the
intervals recorded by its ghost mirror (a successful extraction always has
two points, so the `len >= 2` guard of the source never drops one). -/
lemma emitLoop_eq_filterMap (pm : PathM) (C B eff : ℚ) :
    ∀ (fuel : Nat) (cur : ℚ) (ph : Bool),
      emitLoop pm C B eff fuel cur ph =
        (emitSpans C B eff fuel cur ph).filterMap
          (fun p => extract_path_segment pm p.1 p.2) := by
  intro fuel
  induction fuel with
  | zero => intro cur ph; rfl
  | succ n ih =>
    intro cur ph
    simp only [emitLoop, emitSpans]
    split
    · split
      · by_cases hce : cur < min (cur + C) eff
        · rw [if_pos hce, if_pos hce, List.filterMap_cons]
          cases hx : extract_path_segment pm cur (min (cur + C) eff) with
          | none => simpa using ih _ _
          | some seg =>
            have h2 : seg.length = 2 := extract_path_segment_length hx
            simp [h2, ih]
        · rw [if_neg hce, if_neg hce]
          exact ih _ _
      · exact ih _ _
    · simp

/-- Every interval the emission loop records starts at or after the cursor,
is nonempty, and ends at or before the effective length (for non-negative
cut and bridge lengths, as the cursor never moves backwards). -/
lemma emitSpans_mem {C B eff : ℚ} (hC : 0 ≤ C) (hB : 0 ≤ B) :
    ∀ (fuel : Nat) (cur : ℚ) (ph : Bool) (p : ℚ × ℚ),
      p ∈ emitSpans C B eff fuel cur ph → cur ≤ p.1 ∧ p.1 < p.2 ∧ p.2 ≤ eff := by
  intro fuel
  induction fuel with
  | zero => intro cur ph p hp; exact absurd hp (List.not_mem_nil p)
  | succ n ih =>
    intro cur ph p hp
    simp only [emitSpans] at hp
    split at hp
    · rename_i hcur
      split at hp
      · have hle : cur ≤ min (cur + C) eff := le_min (by linarith) hcur.le
        by_cases hce : cur < min (cur + C) eff
        · rw [if_pos hce] at hp
          rcases List.mem_cons.mp hp with h | h
          · subst h
            exact ⟨le_refl _, hce, min_le_right _ _⟩
          · obtain ⟨h1, h2, h3⟩ := ih _ _ p h
            exact ⟨le_trans hle h1, h2, h3⟩
        · rw [if_neg hce] at hp
          obtain ⟨h1, h2, h3⟩ := ih _ _ p hp
          exact ⟨le_trans hle h1, h2, h3⟩
      · have hle : cur ≤ min (cur + B) eff := le_min (by linarith) hcur.le
        obtain ⟨h1, h2, h3⟩ := ih _ _ p hp
        exact ⟨le_trans hle h1, h2, h3⟩
    · exact absurd hp (List.not_mem_nil p)

/-- Every interval the emission loop records extends over at most one cut
length of arc. -/
lemma emitSpans_extent {C B eff : ℚ} :
    ∀ (fuel : Nat) (cur : ℚ) (ph : Bool) (p : ℚ × ℚ),
      p ∈ emitSpans C B eff fuel cur ph → p.2 - p.1 ≤ C := by
  intro fuel
  induction fuel with
  | zero => intro cur ph p hp; exact absurd hp (List.not_mem_nil p)
  | succ n ih =>
    intro cur ph p hp
    simp only [emitSpans] at hp
    split at hp
    · split at hp
      · by_cases hce : cur < min (cur + C) eff
        · rw [if_pos hce] at hp
          rcases List.mem_cons.mp hp with h | h
          · subst h
            have : min (cur + C) eff ≤ cur + C := min_le_left _ _
            simp only
            linarith
          · exact ih _ _ p h
        · rw [if_neg hce] at hp
          exact ih _ _ p hp
      · exact ih _ _ p hp
    · exact absurd hp (List.not_mem_nil p)

/-- The intervals recorded by the emission loop are disjoint and ordered:
each ends at or before the next begins, and starts strictly increase. -/
lemma emitSpans_pairwise {C B eff : ℚ} (hC : 0 ≤ C) (hB : 0 ≤ B) :
    ∀ (fuel : Nat) (cur : ℚ) (ph : Bool),
      List.Pairwise (fun a b : ℚ × ℚ => a.2 ≤ b.1 ∧ a.1 < b.1)
        (emitSpans C B eff fuel cur ph) := by
  intro fuel
  induction fuel with
  | zero => intro cur ph; exact List.Pairwise.nil
  | succ n ih =>
    intro cur ph
    simp only [emitSpans]
    split
    · split
      · by_cases hce : cur < min (cur + C) eff
        · rw [if_pos hce]
          refine List.Pairwise.cons ?_ (ih _ _)
          intro b hb
          obtain ⟨h1, _, _⟩ := emitSpans_mem hC hB _ _ _ b hb
          exact ⟨h1, lt_of_lt_of_le hce h1⟩
        · rw [if_neg hce]
          exact ih _ _
      · exact ih _ _
    · exact List.Pairwise.nil

end Perforation

namespace Perforation

/-- The mirror argument behind the end-bridge guarantee: the emission loop
run to the full length `L` visits exactly the states the precomputation
simulates (cursor `L - remaining`), so when the simulation reports that the
final phase is a bridge, no emitted interval can reach `L` — an interval
ending at `L` would mean the last consuming phase was a cut. -/
lemma emitSpans_end_lt_of_sim_false {C B L : ℚ} (hC : 0 < C) (hB : 0 < B) :
    ∀ (fuel : Nat) (r : ℚ) (ph : Bool), 0 < r → simFinal C B fuel r ph = false →
      ∀ p ∈ emitSpans C B L fuel (L - r) ph, p.2 < L := by
  intro fuel
  induction fuel with
  | zero => intro r ph hr hsim p hp; exact absurd hp (List.not_mem_nil p)
  | succ n ih =>
    intro r ph hr hsim p hp
    simp only [simFinal] at hsim
    rw [if_pos hr] at hsim
    simp only [emitSpans] at hp
    rw [if_pos (show L - r < L by linarith)] at hp
    cases ph with
    | true =>
      simp only [if_true, Bool.not_true] at hsim
      have hkey : min (L - r + C) L = L - (r - min C r) := by
        have h1 : (L - r) + r = L := by ring
        calc min (L - r + C) L = min ((L - r) + C) ((L - r) + r) := by rw [h1]
          _ = (L - r) + min C r := min_add_add_left _ _ _
          _ = L - (r - min C r) := by ring
      by_cases hr2 : r - min C r ≤ 0
      · rw [if_pos hr2] at hsim
        exact absurd hsim (by simp)
      · rw [if_neg hr2] at hsim
        push_neg at hr2
        simp only [if_true] at hp
        rw [hkey] at hp
        have hce : L - r < L - (r - min C r) := by
          have : 0 < min C r := lt_min hC hr
          linarith
        rw [if_pos hce] at hp
        rcases List.mem_cons.mp hp with h | h
        · subst h
          simp only
          linarith
        · exact ih (r - min C r) false hr2 hsim p h
    | false =>
      simp only [Bool.false_eq_true, if_false, Bool.not_false] at hsim
      have hkey : min (L - r + B) L = L - (r - min B r) := by
        have h1 : (L - r) + r = L := by ring
        calc min (L - r + B) L = min ((L - r) + B) ((L - r) + r) := by rw [h1]
          _ = (L - r) + min B r := min_add_add_left _ _ _
          _ = L - (r - min B r) := by ring
      simp only [Bool.false_eq_true, if_false] at hp
      rw [hkey] at hp
      by_cases hr2 : r - min B r ≤ 0
      · have h0 : r - min B r = 0 :=
          le_antisymm hr2 (by have := min_le_right B r; linarith)
        rw [h0, sub_zero, emitSpans_nil_of_le n (le_refl L) true] at hp
        exact absurd hp (List.not_mem_nil p)
      · rw [if_neg hr2] at hsim
        push_neg at hr2
        exact ih (r - min B r) true hr2 hsim p hp

end Perforation

namespace Perforation

/-- When the path is at most two bridge lengths long (but longer than one
cut+bridge period) and starts in the bridge phase, the simulated pattern
ends in a bridge: bridge, cut, then a final bridge swallows the rest. -/
lemma simFinal_false_of_two_bridge {C B L : ℚ} (hC : 0 < C) (hB : 0 < B)
    (h1 : C + B < L) (h2 : L ≤ B + B) :
    ∀ fuel : Nat, 3 ≤ fuel → simFinal C B fuel L false = false := by
  intro fuel hf
  obtain ⟨k, rfl⟩ : ∃ k, fuel = ((k + 1) + 1) + 1 := ⟨fuel - 3, by omega⟩
  have hL : 0 < L := by linarith
  have m1 : min B L = B := min_eq_left (by linarith)
  have m2 : min C (L - B) = C := min_eq_left (by linarith)
  have m3 : min B (L - B - C) = L - B - C := min_eq_right (by linarith)
  simp only [simFinal, Bool.not_false, Bool.not_true, Bool.false_eq_true, if_false, if_true,
    m1, m2, m3]
  rw [if_pos hL, if_neg (show ¬ L - B ≤ 0 by linarith), if_pos (show (0:ℚ) < L - B by linarith),
    if_neg (show ¬ L - B - C ≤ 0 by linarith),
    if_pos (show (0:ℚ) < L - B - C by linarith),
    if_pos (show L - B - C - (L - B - C) ≤ 0 by linarith)]

/-- Starting from the path start with positive lengths and a positive
effective length (exceeding one bridge when starting in the bridge phase),
the emission loop emits at least one segment interval. -/
lemma emitSpans_ne_nil {C B eff : ℚ} (hC : 0 < C) (hB : 0 < B) (heff : 0 < eff) :
    ∀ (fuel : Nat) (ph : Bool), 2 ≤ fuel → (ph = false → B < eff) →
      emitSpans C B eff fuel 0 ph ≠ [] := by
  intro fuel ph hf hbe
  cases ph with
  | true =>
    obtain ⟨k, rfl⟩ : ∃ k, fuel = k + 1 := ⟨fuel - 1, by omega⟩
    simp only [emitSpans, if_true]
    rw [if_pos heff]
    have h : (0:ℚ) < min (0 + C) eff := lt_min (by linarith) heff
    simp only [if_pos h]
    exact List.cons_ne_nil _ _
  | false =>
    obtain ⟨k, rfl⟩ : ∃ k, fuel = (k + 1) + 1 := ⟨fuel - 2, by omega⟩
    have hBe : B < eff := hbe rfl
    have hmb : min (0 + B) eff = B := by
      rw [zero_add]; exact min_eq_left hBe.le
    have h : B < min (B + C) eff := lt_min (by linarith) hBe
    simp only [emitSpans, Bool.false_eq_true, if_false, if_true, hmb]
    rw [if_pos heff, if_pos hBe, if_pos h]
    exact List.cons_ne_nil _ _

end Perforation

namespace Perforation

/-- `apply_perforation` either returns exactly the successful extractions of
the intervals its ghost mirror records, or falls back to the unmodified
polyline (pass-through of degenerate input, or empty emission). -/
lemma apply_perforation_filterMap_or (pm : PathM) (poly : Polyline) (C B : ℚ)
    (swc : Bool) (fuel : Nat) :
    apply_perforation pm poly C B swc fuel =
      (apply_perforationSpans pm poly C B swc fuel).filterMap
        (fun p => extract_path_segment pm p.1 p.2)
    ∨ apply_perforation pm poly C B swc fuel = [poly] := by
  by_cases h1 : poly.length < 2
  · right
    simp only [apply_perforation]
    rw [if_pos h1]
  · simp only [apply_perforation, apply_perforationSpans]
    rw [if_neg h1, if_neg h1]
    by_cases h2 : pm.length ≤ C + B
    · rw [if_pos h2, if_pos h2]
      by_cases h3 : pm.length ≤ C
      · rw [if_pos h3, if_pos h3]
        cases swc with
        | false => left; simp
        | true =>
          simp only [if_true]
          by_cases h5 : B < pm.length
          · rw [if_pos h5, if_pos h5]
            by_cases h6 : (0:ℚ) < pm.length - B
            · rw [if_pos h6, if_pos h6]
              left
              cases hx : extract_path_segment pm 0 (pm.length - B) <;> simp [hx]
            · rw [if_neg h6, if_neg h6]
              left
              simp
          · rw [if_neg h5, if_neg h5]
            left
            simp
      · rw [if_neg h3, if_neg h3]
        left
        cases hx : extract_path_segment pm 0 C <;> simp [hx]
    · rw [if_neg h2, if_neg h2]
      by_cases hemp : emitLoop pm C B
          (if C + B < pm.length then
            if simFinal C B fuel pm.length swc then
              if B < pm.length then pm.length - B else pm.length
            else pm.length
          else pm.length) fuel 0 swc = []
      · right
        rw [if_pos hemp]
      · left
        rw [if_neg hemp]
        exact emitLoop_eq_filterMap pm C B _ fuel 0 swc

/-- Every interval the filter attempts to extract spans at most one cut
length of arc (the short-path branches trim to `L - B ≤ L ≤ C` or use `C`
itself; the emission loop caps each cut at `C`). -/
lemma apply_perforationSpans_extent {pm : PathM} {poly : Polyline} {C B : ℚ}
    {swc : Bool} {fuel : Nat} (hB : 0 ≤ B) :
    ∀ p ∈ apply_perforationSpans pm poly C B swc fuel, p.2 - p.1 ≤ C := by
  intro p hp
  simp only [apply_perforationSpans] at hp
  split at hp
  · exact absurd hp (List.not_mem_nil p)
  · split at hp
    · split at hp
      · split at hp
        · split at hp
          · split at hp
            · rename_i h2 h3 _ _ _
              rcases List.mem_singleton.mp hp with rfl
              simp only
              linarith
            · exact absurd hp (List.not_mem_nil p)
          · exact absurd hp (List.not_mem_nil p)
        · exact absurd hp (List.not_mem_nil p)
      · rcases List.mem_singleton.mp hp with rfl
        simp only
        linarith
    · exact emitSpans_extent _ _ _ p hp

/-- The intervals the filter attempts to extract are disjoint and their
starts strictly increase, in emission order. -/
lemma apply_perforationSpans_pairwise {pm : PathM} {poly : Polyline} {C B : ℚ}
    {swc : Bool} {fuel : Nat} (hC : 0 ≤ C) (hB : 0 ≤ B) :
    List.Pairwise (fun a b : ℚ × ℚ => a.2 ≤ b.1 ∧ a.1 < b.1)
      (apply_perforationSpans pm poly C B swc fuel) := by
  simp only [apply_perforationSpans]
  split
  · exact List.Pairwise.nil
  · split
    · split
      · split
        · split
          · split
            · exact List.pairwise_singleton _ _
            · exact List.Pairwise.nil
          · exact List.Pairwise.nil
        · exact List.Pairwise.nil
      · exact List.pairwise_singleton _ _
    · exact emitSpans_pairwise hC hB _ _ _

end Perforation

namespace Perforation

/-- Termination of the end-bridge precomputation loop, expressed as fuel
insensitivity: with a positive bridge length every second iteration consumes
a full bridge length, so any fuel of at least `2 * ceil(r / B) + 2` gives
the same answer. -/
lemma simFinal_stable {C B : ℚ} (hC : 0 ≤ C) (hB : 0 < B) :
    ∀ (n : Nat) (r : ℚ) (ph : Bool) (f g : Nat), r ≤ n * B →
      2 * n + 2 ≤ f → 2 * n + 2 ≤ g →
      simFinal C B f r ph = simFinal C B g r ph := by
  intro n
  induction n with
  | zero =>
    intro r ph f g hr hf hg
    obtain ⟨f1, rfl⟩ : ∃ k, f = k + 1 := ⟨f - 1, by omega⟩
    obtain ⟨g1, rfl⟩ : ∃ k, g = k + 1 := ⟨g - 1, by omega⟩
    have hr0 : ¬ 0 < r := by
      simp only [Nat.cast_zero, zero_mul] at hr
      exact not_lt.mpr hr
    simp only [simFinal, if_neg hr0]
  | succ n ih =>
    have bridge : ∀ (r : ℚ) (f g : Nat), r ≤ (n + 1 : Nat) * B →
        2 * n + 3 ≤ f → 2 * n + 3 ≤ g →
        simFinal C B f r false = simFinal C B g r false := by
      intro r f g hr hf hg
      obtain ⟨f1, rfl⟩ : ∃ k, f = k + 1 := ⟨f - 1, by omega⟩
      obtain ⟨g1, rfl⟩ : ∃ k, g = k + 1 := ⟨g - 1, by omega⟩
      simp only [simFinal, Bool.false_eq_true, if_false, Bool.not_false]
      by_cases hr0 : 0 < r
      · rw [if_pos hr0, if_pos hr0]
        by_cases hr1 : r - min B r ≤ 0
        · rw [if_pos hr1, if_pos hr1]
        · rw [if_neg hr1, if_neg hr1]
          push_neg at hr1
          have hmin : min B r = B := by
            rcases min_cases B r with ⟨h, _⟩ | ⟨h, _⟩
            · exact h
            · exfalso
              rw [h] at hr1
              linarith
          rw [hmin] at hr1 ⊢
          push_cast at hr
          exact ih (r - B) true f1 g1 (by linarith) (by omega) (by omega)
      · rw [if_neg hr0, if_neg hr0]
    intro r ph f g hr hf hg
    cases ph with
    | false => exact bridge r f g hr (by omega) (by omega)
    | true =>
      obtain ⟨f1, rfl⟩ : ∃ k, f = k + 1 := ⟨f - 1, by omega⟩
      obtain ⟨g1, rfl⟩ : ∃ k, g = k + 1 := ⟨g - 1, by omega⟩
      simp only [simFinal, if_true, Bool.not_true]
      by_cases hr0 : 0 < r
      · rw [if_pos hr0, if_pos hr0]
        by_cases hr1 : r - min C r ≤ 0
        · rw [if_pos hr1, if_pos hr1]
        · rw [if_neg hr1, if_neg hr1]
          have hd : 0 ≤ min C r := le_min hC hr0.le
          exact bridge (r - min C r) f1 g1 (by linarith) (by omega) (by omega)
      · rw [if_neg hr0, if_neg hr0]

/-- Termination of the emission loop, expressed as fuel insensitivity: with
a positive bridge length and non-negative cut length the cursor gains a full
bridge length every second iteration (or reaches the effective length),
so any fuel of at least `2 * ceil((eff - cur) / B) + 2` gives the same
emitted segments. -/
lemma emitLoop_stable (pm : PathM) {C B : ℚ} (hC : 0 ≤ C) (hB : 0 < B) (eff : ℚ) :
    ∀ (n : Nat) (cur : ℚ) (ph : Bool) (f g : Nat), eff - cur ≤ n * B →
      2 * n + 2 ≤ f → 2 * n + 2 ≤ g →
      emitLoop pm C B eff f cur ph = emitLoop pm C B eff g cur ph := by
  intro n
  induction n with
  | zero =>
    intro cur ph f g hr hf hg
    obtain ⟨f1, rfl⟩ : ∃ k, f = k + 1 := ⟨f - 1, by omega⟩
    obtain ⟨g1, rfl⟩ : ∃ k, g = k + 1 := ⟨g - 1, by omega⟩
    have hr0 : ¬ cur < eff := by
      simp only [Nat.cast_zero, zero_mul] at hr
      exact not_lt.mpr (by linarith)
    simp only [emitLoop, if_neg hr0]
  | succ n ih =>
    have bridge : ∀ (cur : ℚ) (f g : Nat), eff - cur ≤ (n + 1 : Nat) * B →
        2 * n + 3 ≤ f → 2 * n + 3 ≤ g →
        emitLoop pm C B eff f cur false = emitLoop pm C B eff g cur false := by
      intro cur f g hr hf hg
      obtain ⟨f1, rfl⟩ : ∃ k, f = k + 1 := ⟨f - 1, by omega⟩
      obtain ⟨g1, rfl⟩ : ∃ k, g = k + 1 := ⟨g - 1, by omega⟩
      simp only [emitLoop, Bool.false_eq_true, if_false]
      by_cases hr0 : cur < eff
      · rw [if_pos hr0, if_pos hr0]
        have hb : eff - min (cur + B) eff ≤ n * B := by
          push_cast at hr
          rcases min_cases (cur + B) eff with ⟨h, _⟩ | ⟨h, _⟩ <;> rw [h]
          · linarith
          · have : (0:ℚ) ≤ n * B := by positivity
            linarith
        exact ih _ true f1 g1 hb (by omega) (by omega)
      · rw [if_neg hr0, if_neg hr0]
    intro cur ph f g hr hf hg
    cases ph with
    | false => exact bridge cur f g hr (by omega) (by omega)
    | true =>
      obtain ⟨f1, rfl⟩ : ∃ k, f = k + 1 := ⟨f - 1, by omega⟩
      obtain ⟨g1, rfl⟩ : ∃ k, g = k + 1 := ⟨g - 1, by omega⟩
      simp only [emitLoop, if_true]
      by_cases hr0 : cur < eff
      · rw [if_pos hr0, if_pos hr0]
        have hce1 : cur ≤ min (cur + C) eff := le_min (by linarith) hr0.le
        have tail : emitLoop pm C B eff f1 (min (cur + C) eff) false =
            emitLoop pm C B eff g1 (min (cur + C) eff) false := by
          refine bridge _ f1 g1 ?_ (by omega) (by omega)
          linarith
        by_cases hce2 : cur < min (cur + C) eff
        · rw [if_pos hce2, if_pos hce2, tail]
        · rw [if_neg hce2, if_neg hce2, tail]
      · rw [if_neg hr0, if_neg hr0]

end Perforation

namespace Perforation

/-- `ceil (L / B)` bridge lengths cover `L`. -/
lemma le_toNat_ceil_mul {L B : ℚ} (hB : 0 < B) (hL : 0 ≤ L) :
    L ≤ ((Int.ceil (L / B)).toNat : ℚ) * B := by
  have hc0 : (0:ℤ) ≤ Int.ceil (L / B) := Int.ceil_nonneg (div_nonneg hL hB.le)
  have h1 : L / B ≤ ((Int.ceil (L / B)).toNat : ℚ) := by
    have h3 : ((Int.ceil (L / B)).toNat : ℤ) = Int.ceil (L / B) := Int.toNat_of_nonneg hc0
    calc L / B ≤ ((Int.ceil (L / B) : ℤ) : ℚ) := Int.le_ceil _
      _ = ((Int.ceil (L / B)).toNat : ℚ) := by exact_mod_cast h3.symm
  calc L = L / B * B := by field_simp
    _ ≤ ((Int.ceil (L / B)).toNat : ℚ) * B := mul_le_mul_of_nonneg_right h1 hB.le

/-- The standard fuel covers at least three iterations and the stabilization
bound of both loops. -/
lemma stdFuel_ge (pm : PathM) (C B : ℚ) :
    2 * (Int.ceil (pm.length / B)).toNat + 2 ≤ stdFuel pm C B ∧ 3 ≤ stdFuel pm C B := by
  simp only [stdFuel]
  omega

/-- `apply_perforation` computes the same result with any fuel at or above
the standard amount (for a positive bridge length and non-negative cut
length — the parameters under which `apply_to_polypath` invokes it). -/
lemma apply_perforation_stable (pm : PathM) (poly : Polyline) {C B : ℚ}
    (hC : 0 ≤ C) (hB : 0 < B) (swc : Bool) (extra : Nat) :
    apply_perforation pm poly C B swc (stdFuel pm C B + extra) =
      apply_perforation pm poly C B swc (stdFuel pm C B) := by
  by_cases h1 : poly.length < 2
  · simp only [apply_perforation, if_pos h1]
  · simp only [apply_perforation]
    rw [if_neg h1, if_neg h1]
    by_cases h2 : pm.length ≤ C + B
    · rw [if_pos h2, if_pos h2]
    · rw [if_neg h2, if_neg h2]
      push_neg at h2
      have hL : 0 < pm.length := by linarith
      have hbound := le_toNat_ceil_mul hB hL.le
      obtain ⟨hfuel, -⟩ := stdFuel_ge pm C B
      have hsim := simFinal_stable hC hB (Int.ceil (pm.length / B)).toNat pm.length swc
        (stdFuel pm C B + extra) (stdFuel pm C B) hbound (by omega) hfuel
      rw [hsim]
      set E := (if C + B < pm.length then
            if simFinal C B (stdFuel pm C B) pm.length swc = true then
              if B < pm.length then pm.length - B else pm.length
            else pm.length
          else pm.length) with hEdef
      have hE : E ≤ pm.length := by
        rw [hEdef]
        split_ifs <;> linarith
      have hemit := emitLoop_stable pm hC hB E (Int.ceil (pm.length / B)).toNat 0 swc
        (stdFuel pm C B + extra) (stdFuel pm C B)
        (by rw [sub_zero]; exact le_trans hE hbound) (by omega) hfuel
      rw [hemit]

end Perforation

namespace Perforation

/-- The general (long-path) branch of `apply_perforation` with an honest
sampler: the result is exactly the chords of the recorded intervals, at
least one interval is emitted (so the unmodified-polyline fallback is not
taken), and every interval ends strictly before the total length. -/
lemma general_branch_main (pm : PathM) (poly : Polyline) {C B : ℚ} (f : ℚ → Point)
    (hf : ∀ t, pm.pointAt t = some (f t)) (swc : Bool) (fuel : Nat)
    (hlen : 2 ≤ poly.length) (hC : 0 < C) (hB : 0 < B) (hL : C + B < pm.length)
    (hfuel : 3 ≤ fuel) :
    apply_perforation pm poly C B swc fuel =
      (apply_perforationSpans pm poly C B swc fuel).filterMap
        (fun p => extract_path_segment pm p.1 p.2)
    ∧ apply_perforationSpans pm poly C B swc fuel ≠ []
    ∧ ∀ p ∈ apply_perforationSpans pm poly C B swc fuel, p.2 < pm.length := by
  have h1 : ¬ poly.length < 2 := not_lt.mpr hlen
  have h2 : ¬ pm.length ≤ C + B := not_le.mpr hL
  have hBL : B < pm.length := by linarith
  simp only [apply_perforation, apply_perforationSpans]
  rw [if_neg h1, if_neg h1, if_neg h2, if_neg h2, if_pos hL, if_pos hBL]
  by_cases hsim : simFinal C B fuel pm.length swc = true
  case neg =>
    have hsimf : simFinal C B fuel pm.length swc = false := by
      simp only [Bool.not_eq_true] at hsim
      exact hsim
    rw [if_neg hsim]
    have heff : (0:ℚ) < pm.length := by linarith
    have hbe : swc = false → B < pm.length := fun _ => hBL
    have hne := emitSpans_ne_nil hC hB heff fuel swc (by omega) hbe
    refine ⟨?_, hne, ?_⟩
    · obtain ⟨p, tl, hsp⟩ := List.exists_cons_of_ne_nil hne
      have hpmem : p ∈ emitSpans C B pm.length fuel 0 swc := by
        rw [hsp]
        exact List.mem_cons_self _ _
      obtain ⟨hp1, hp2, hp3⟩ := emitSpans_mem hC.le hB.le fuel 0 swc p hpmem
      have hex := extract_path_segment_honest hf hp2
        (show p.1 < pm.length by linarith)
      have hloop := emitLoop_eq_filterMap pm C B pm.length fuel 0 swc
      have hsegne : emitLoop pm C B pm.length fuel 0 swc ≠ [] := by
        rw [hloop, hsp]
        simp [List.filterMap_cons, hex]
      rw [if_neg hsegne]
      exact hloop
    · intro p hp
      refine emitSpans_end_lt_of_sim_false hC hB fuel pm.length swc (by linarith) hsimf p ?_
      rw [sub_self]
      exact hp
  case pos =>
    rw [if_pos hsim]
    have heff : (0:ℚ) < pm.length - B := by linarith
    have hbe : swc = false → B < pm.length - B := by
      intro hswc
      by_contra hnb
      push_neg at hnb
      have hfalse := simFinal_false_of_two_bridge hC hB hL (by linarith) fuel hfuel
      rw [hswc, hfalse] at hsim
      exact absurd hsim (by simp)
    have hne := emitSpans_ne_nil hC hB heff fuel swc (by omega) hbe
    refine ⟨?_, hne, ?_⟩
    · obtain ⟨p, tl, hsp⟩ := List.exists_cons_of_ne_nil hne
      have hpmem : p ∈ emitSpans C B (pm.length - B) fuel 0 swc := by
        rw [hsp]
        exact List.mem_cons_self _ _
      obtain ⟨hp1, hp2, hp3⟩ := emitSpans_mem hC.le hB.le fuel 0 swc p hpmem
      have hex := extract_path_segment_honest hf hp2
        (show p.1 < pm.length by linarith)
      have hloop := emitLoop_eq_filterMap pm C B (pm.length - B) fuel 0 swc
      have hsegne : emitLoop pm C B (pm.length - B) fuel 0 swc ≠ [] := by
        rw [hloop, hsp]
        simp [List.filterMap_cons, hex]
      rw [if_neg hsegne]
      exact hloop
    · intro p hp
      obtain ⟨-, -, hp3⟩ := emitSpans_mem hC.le hB.le fuel 0 swc p hp
      linarith

end Perforation

namespace Perforation

/-- C2: for every config with `bridge_length ≤ 0` (in particular also when
both lengths are non-positive), `apply` is the identity on any input
collection of polylines. -/
theorem apply_identity_of_bridge_nonpos (measure : Polyline → PathM)
    (polypath : List Polyline) (C B : ℚ) (swc : Bool) (hB : B ≤ 0) :
    apply_to_polypath measure polypath C B swc = polypath := by
  unfold apply_to_polypath apply_to_polypathFuel
  by_cases h1 : C ≤ 0 ∧ B ≤ 0
  · rw [if_pos h1]
  · rw [if_neg h1, if_pos hB]

/-- C2 witness. -/
theorem apply_identity_of_bridge_nonpos_witness :
    apply_to_polypath (fun _ => lineM 100) [[((0:ℚ),(0:ℚ)),(100,0)]] 5 0 true =
      [[((0:ℚ),(0:ℚ)),(100,0)]] :=
  apply_identity_of_bridge_nonpos (fun _ => lineM 100) [[((0:ℚ),(0:ℚ)),(100,0)]] 5 0 true
    (by norm_num)

/-- C9: with the data-model constraints `cut_length ≥ 0` and
`bridge_length ≥ 0`, `apply` is total: it always returns a polyline
collection, and both internal loops terminate — giving them any amount of
fuel beyond the standard allowance never changes the result. -/
theorem apply_total_terminates (measure : Polyline → PathM) (polypath : List Polyline)
    (C B : ℚ) (swc : Bool) (hC : 0 ≤ C) (hB : 0 ≤ B) (extra : Nat) :
    apply_to_polypathFuel measure polypath C B swc extra =
      apply_to_polypath measure polypath C B swc := by
  unfold apply_to_polypath apply_to_polypathFuel
  by_cases h1 : C ≤ 0 ∧ B ≤ 0
  · rw [if_pos h1, if_pos h1]
  · by_cases h2 : B ≤ 0
    · rw [if_neg h1, if_neg h1, if_pos h2, if_pos h2]
    · rw [if_neg h1, if_neg h1, if_neg h2, if_neg h2]
      push_neg at h2
      induction polypath with
      | nil => rfl
      | cons p tl ih =>
        simp only [List.flatMap_cons]
        have hhead : (if p.length < 2 then [p]
            else apply_perforation (measure p) p C B swc (stdFuel (measure p) C B + extra)) =
            (if p.length < 2 then [p]
            else apply_perforation (measure p) p C B swc (stdFuel (measure p) C B + 0)) := by
          by_cases hp : p.length < 2
          · rw [if_pos hp, if_pos hp]
          · rw [if_neg hp, if_neg hp, Nat.add_zero]
            exact apply_perforation_stable (measure p) p hC h2 swc extra
        rw [hhead, ih]

/-- C9 witness. -/
theorem apply_total_terminates_witness :
    apply_to_polypathFuel (fun _ => lineM 100) [[((0:ℚ),(0:ℚ)),(100,0)]] 5 2 true 7 =
      apply_to_polypath (fun _ => lineM 100) [[((0:ℚ),(0:ℚ)),(100,0)]] 5 2 true :=
  apply_total_terminates (fun _ => lineM 100) [[((0:ℚ),(0:ℚ)),(100,0)]] 5 2 true
    (by norm_num) (by norm_num) 7

/-- C10: with `cut_length = 0` and `bridge_length > 0`, a polyline of
positive total length at most one bridge length is dropped entirely (the
zero-length extraction from 0 to 0 yields nothing), while a longer polyline
is returned unchanged through the empty-emission fallback. -/
theorem segment_zero_cut_policy (pm : PathM) (poly : Polyline) (B : ℚ) (swc : Bool)
    (hlen : 2 ≤ poly.length) (hB : 0 < B) :
    (0 < pm.length → pm.length ≤ B → segment pm poly ⟨0, B, swc⟩ = [])
    ∧ (B < pm.length → segment pm poly ⟨0, B, swc⟩ = [poly]) := by
  have h1 : ¬ poly.length < 2 := not_lt.mpr hlen
  constructor
  · intro hL hLB
    unfold segment apply_perforation
    dsimp only
    rw [if_neg h1]
    simp only [zero_add]
    rw [if_pos hLB, if_neg (not_le.mpr hL)]
    have hnone : extract_path_segment pm 0 0 = none := by
      unfold extract_path_segment
      exact if_pos (le_refl (0:ℚ))
    rw [hnone]
  · intro hBL
    unfold segment apply_perforation
    dsimp only
    rw [if_neg h1]
    simp only [zero_add]
    rw [if_neg (not_le.mpr hBL)]
    rw [emitLoop_nil_of_cut_nonpos pm (le_refl (0:ℚ)) _ _ _, if_pos rfl]

/-- C10 witness. -/
theorem segment_zero_cut_policy_witness :
    segment (lineM 12) [((0:ℚ),(0:ℚ)),(12,0)] ⟨0, 2, true⟩ = [[((0:ℚ),(0:ℚ)),(12,0)]] :=
  (segment_zero_cut_policy (lineM 12) [((0:ℚ),(0:ℚ)),(12,0)] 2 true (by decide)
    (by norm_num)).2 (by norm_num [lineM])

end Perforation

namespace Perforation

/-- C3: short-path policy for `0 < L ≤ cut_length` (with an honest sampler
and a non-negative bridge length, per the data model): starting in the
bridge phase emits nothing; starting in the cut phase emits nothing when
`L ≤ bridge_length`, and otherwise exactly the chord from distance `0` to
`L - bridge_length`. -/
theorem segment_short_path_policy (pm : PathM) (poly : Polyline) (f : ℚ → Point)
    (hf : ∀ t, pm.pointAt t = some (f t)) (cfg : PerforationConfig)
    (hlen : 2 ≤ poly.length) (hL0 : 0 < pm.length) (hLC : pm.length ≤ cfg.cut_length)
    (hB : 0 ≤ cfg.bridge_length) :
    (cfg.start_with_cut = false → segment pm poly cfg = [])
    ∧ (cfg.start_with_cut = true → pm.length ≤ cfg.bridge_length →
        segment pm poly cfg = [])
    ∧ (cfg.start_with_cut = true → cfg.bridge_length < pm.length →
        segment pm poly cfg =
          [[f 0, f ((pm.length - cfg.bridge_length) / pm.length)]]) := by
  obtain ⟨C, B, swc⟩ := cfg
  dsimp only at hLC hB ⊢
  have h1 : ¬ poly.length < 2 := not_lt.mpr hlen
  have hP : pm.length ≤ C + B := by linarith
  refine ⟨?_, ?_, ?_⟩
  · intro hswc
    subst hswc
    unfold segment apply_perforation
    dsimp only
    rw [if_neg h1, if_pos hP, if_pos hLC]
    simp
  · intro hswc hLB
    subst hswc
    unfold segment apply_perforation
    dsimp only
    rw [if_neg h1, if_pos hP, if_pos hLC, if_pos rfl, if_neg (not_lt.mpr hLB)]
  · intro hswc hBL
    subst hswc
    unfold segment apply_perforation
    dsimp only
    rw [if_neg h1, if_pos hP, if_pos hLC, if_pos rfl, if_pos hBL,
      if_pos (show (0:ℚ) < pm.length - B by linarith)]
    have hex := extract_path_segment_honest hf
      (show (0:ℚ) < pm.length - B by linarith) hL0
    have hmin : min ((pm.length - B) / pm.length) 1 = (pm.length - B) / pm.length := by
      apply min_eq_left
      rw [div_le_one hL0]
      linarith
    have hzero : (0:ℚ) / pm.length = 0 := zero_div _
    rw [hex, hmin, hzero]

/-- C3 witness: the length-3 line with `cut_length = 5`, `bridge_length = 2`
is trimmed to the chord from 0 to 1. -/
theorem segment_short_path_policy_witness :
    segment (lineM 3) [((0:ℚ),(0:ℚ)),(3,0)] ⟨5, 2, true⟩ = [[((0:ℚ),(0:ℚ)),(1,0)]] := by
  have h := (segment_short_path_policy (lineM 3) [((0:ℚ),(0:ℚ)),(3,0)]
    (fun t => ((3:ℚ) * t, (0:ℚ))) (fun t => rfl) ⟨5, 2, true⟩ (by decide)
    (by norm_num [lineM]) (by norm_num [lineM]) (by norm_num)).2.2 rfl (by norm_num [lineM])
  norm_num [lineM] at h
  exact h

end Perforation

namespace Perforation

/-- C4 counterexample: with the data-model-legal config `cut_length = 0`,
`bridge_length = 2` and a line of length 1, the hypothesis
`cut_length < total_length ≤ cut_length + bridge_length` holds, yet
`segment` returns the empty sequence, not exactly one Segment — the
zero-length extraction from 0 to 0 yields nothing. -/
theorem segment_single_cut_counterexample :
    ((⟨0, 2, true⟩ : PerforationConfig).cut_length < (lineM 1).length
      ∧ (lineM 1).length ≤ (⟨0, 2, true⟩ : PerforationConfig).cut_length
          + (⟨0, 2, true⟩ : PerforationConfig).bridge_length)
    ∧ ¬ ∃ q, segment (lineM 1) [((0:ℚ),(0:ℚ)),(1,0)] ⟨0, 2, true⟩ = [q] := by
  refine ⟨⟨by norm_num [lineM], by norm_num [lineM]⟩, ?_⟩
  have h : segment (lineM 1) [((0:ℚ),(0:ℚ)),(1,0)] ⟨0, 2, true⟩ = [] :=
    of_decide_eq_true (by with_unfolding_all rfl)
  rintro ⟨q, hq⟩
  rw [h] at hq
  exact List.cons_ne_nil q [] hq.symm

/-- C4 (amended: additionally requires `cut_length > 0`, and measurement to
succeed): for `0 < cut_length < L ≤ cut_length + bridge_length`, `segment`
returns exactly one Segment, spanning the arc interval from 0 to
`cut_length`. -/
theorem segment_single_cut (pm : PathM) (poly : Polyline) (f : ℚ → Point)
    (hf : ∀ t, pm.pointAt t = some (f t)) (cfg : PerforationConfig)
    (hlen : 2 ≤ poly.length) (hC : 0 < cfg.cut_length)
    (hCL : cfg.cut_length < pm.length)
    (hLP : pm.length ≤ cfg.cut_length + cfg.bridge_length) :
    segmentSpans pm poly cfg = [(0, cfg.cut_length)]
    ∧ segment pm poly cfg = [[f 0, f (cfg.cut_length / pm.length)]] := by
  obtain ⟨C, B, swc⟩ := cfg
  dsimp only at hC hCL hLP ⊢
  have h1 : ¬ poly.length < 2 := not_lt.mpr hlen
  have hL0 : 0 < pm.length := lt_trans hC hCL
  constructor
  · unfold segmentSpans apply_perforationSpans
    dsimp only
    rw [if_neg h1, if_pos hLP, if_neg (not_le.mpr hCL)]
  · unfold segment apply_perforation
    dsimp only
    rw [if_neg h1, if_pos hLP, if_neg (not_le.mpr hCL)]
    have hex := extract_path_segment_honest hf hC hL0
    have hmin : min (C / pm.length) 1 = C / pm.length := by
      apply min_eq_left
      rw [div_le_one hL0]
      linarith
    have hzero : (0:ℚ) / pm.length = 0 := zero_div _
    rw [hex, hmin, hzero]

/-- C4 witness: a line of length 6 with `cut_length = 5`, `bridge_length = 2`
yields the single chord from 0 to 5. -/
theorem segment_single_cut_witness :
    segmentSpans (lineM 6) [((0:ℚ),(0:ℚ)),(6,0)] ⟨5, 2, true⟩ = [((0:ℚ), (5:ℚ))]
    ∧ segment (lineM 6) [((0:ℚ),(0:ℚ)),(6,0)] ⟨5, 2, true⟩ = [[((0:ℚ),(0:ℚ)),(5,0)]] := by
  have h := segment_single_cut (lineM 6) [((0:ℚ),(0:ℚ)),(6,0)]
    (fun t => ((6:ℚ) * t, (0:ℚ))) (fun t => rfl) ⟨5, 2, true⟩ (by decide)
    (by norm_num) (by norm_num [lineM]) (by norm_num [lineM])
  norm_num [lineM] at h
  exact h

end Perforation

namespace Perforation

/-- C5 counterexample: with the data-model-legal config `cut_length = 0`,
`bridge_length = 2` and a line of length 12, the emission loop emits
nothing, so `segment` falls back to returning the original polyline — a
returned element that is not an extracted chord over an interval of at most
`cut_length` of arc (its span is 12 > 0). -/
theorem segment_output_bounded_counterexample :
    ¬ ∀ q ∈ segment (lineM 12) [((0:ℚ),(0:ℚ)),(12,0)] ⟨0, 2, true⟩,
        2 ≤ q.length ∧ ∃ s e : ℚ,
          e - s ≤ (⟨0, 2, true⟩ : PerforationConfig).cut_length ∧
          extract_path_segment (lineM 12) s e = some q := by
  intro h
  have hseg : segment (lineM 12) [((0:ℚ),(0:ℚ)),(12,0)] ⟨0, 2, true⟩ =
      [[((0:ℚ),(0:ℚ)),(12,0)]] := of_decide_eq_true (by with_unfolding_all rfl)
  have hm : [((0:ℚ),(0:ℚ)),(12,0)] ∈ segment (lineM 12) [((0:ℚ),(0:ℚ)),(12,0)] ⟨0, 2, true⟩ := by
    rw [hseg]
    exact List.mem_singleton.mpr rfl
  obtain ⟨-, s, e, hse, hex⟩ := h _ hm
  unfold extract_path_segment at hex
  by_cases h2 : e ≤ s
  · rw [if_pos h2] at hex
    exact absurd hex (by simp)
  · have hcfg : (⟨0, 2, true⟩ : PerforationConfig).cut_length = 0 := rfl
    rw [hcfg] at hse
    push_neg at h2
    linarith

/-- C5 (amended: the whole-polyline fallback is exempt): every element
`segment` returns is either the unmodified input polyline (fallback) or an
extracted two-point chord over an arc interval of length at most
`cut_length`. -/
theorem segment_output_bounded (pm : PathM) (poly : Polyline) (cfg : PerforationConfig)
    (hB : 0 ≤ cfg.bridge_length) :
    ∀ q ∈ segment pm poly cfg, q = poly ∨
      (2 ≤ q.length ∧ ∃ s e : ℚ, e - s ≤ cfg.cut_length ∧
        extract_path_segment pm s e = some q) := by
  intro q hq
  rcases apply_perforation_filterMap_or pm poly cfg.cut_length cfg.bridge_length
    cfg.start_with_cut (stdFuel pm cfg.cut_length cfg.bridge_length) with h | h
  · right
    unfold segment at hq
    rw [h] at hq
    obtain ⟨p, hp, hex⟩ := List.mem_filterMap.mp hq
    have h2 := extract_path_segment_length hex
    exact ⟨by omega, p.1, p.2, apply_perforationSpans_extent hB p hp, hex⟩
  · left
    unfold segment at hq
    rw [h] at hq
    exact List.mem_singleton.mp hq

/-- C5 witness: the first Segment returned for the length-100 line is the
chord [(0,0),(5,0)], a two-point extraction over an interval of extent at
most the cut length. -/
theorem segment_output_bounded_witness :
    [((0:ℚ),(0:ℚ)),(5,0)] = [((0:ℚ),(0:ℚ)),(100,0)] ∨
    (2 ≤ ([((0:ℚ),(0:ℚ)),(5,0)] : Polyline).length ∧ ∃ s e : ℚ,
      e - s ≤ (⟨5, 2, true⟩ : PerforationConfig).cut_length ∧
      extract_path_segment (lineM 100) s e = some [((0:ℚ),(0:ℚ)),(5,0)]) :=
  segment_output_bounded (lineM 100) [((0:ℚ),(0:ℚ)),(100,0)] ⟨5, 2, true⟩ (by norm_num)
    [((0:ℚ),(0:ℚ)),(5,0)] (of_decide_eq_true (by with_unfolding_all rfl))

/-- C6: the intervals of the Segments returned for one polyline are pairwise
non-overlapping with strictly increasing starts, and the returned sequence
is exactly the successful extractions of those intervals (or the documented
whole-polyline fallback). -/
theorem segment_spans_disjoint_increasing (pm : PathM) (poly : Polyline)
    (cfg : PerforationConfig) (hC : 0 ≤ cfg.cut_length) (hB : 0 ≤ cfg.bridge_length) :
    List.Pairwise (fun a b : ℚ × ℚ => a.2 ≤ b.1 ∧ a.1 < b.1) (segmentSpans pm poly cfg)
    ∧ (segment pm poly cfg =
        (segmentSpans pm poly cfg).filterMap (fun p => extract_path_segment pm p.1 p.2)
      ∨ segment pm poly cfg = [poly]) :=
  ⟨apply_perforationSpans_pairwise hC hB,
   apply_perforation_filterMap_or pm poly cfg.cut_length cfg.bridge_length
     cfg.start_with_cut (stdFuel pm cfg.cut_length cfg.bridge_length)⟩

/-- C6 witness. -/
theorem segment_spans_disjoint_increasing_witness :
    List.Pairwise (fun a b : ℚ × ℚ => a.2 ≤ b.1 ∧ a.1 < b.1)
      (segmentSpans (lineM 100) [((0:ℚ),(0:ℚ)),(100,0)] ⟨5, 2, true⟩)
    ∧ (segment (lineM 100) [((0:ℚ),(0:ℚ)),(100,0)] ⟨5, 2, true⟩ =
        (segmentSpans (lineM 100) [((0:ℚ),(0:ℚ)),(100,0)] ⟨5, 2, true⟩).filterMap
          (fun p => extract_path_segment (lineM 100) p.1 p.2)
      ∨ segment (lineM 100) [((0:ℚ),(0:ℚ)),(100,0)] ⟨5, 2, true⟩ =
          [[((0:ℚ),(0:ℚ)),(100,0)]]) :=
  segment_spans_disjoint_increasing (lineM 100) [((0:ℚ),(0:ℚ)),(100,0)] ⟨5, 2, true⟩
    (by norm_num) (by norm_num)

/-- C7: the concrete scenario — a straight line of length 100 with
`cut_length = 5`, `bridge_length = 2`, starting with a cut: the k-th of the
14 returned Segments spans `[7k, 7k+5]` (so the first is `[(0,0),(5,0)]`,
the second `[(7,0),(12,0)]`), every interval ends at or before 98 (hence
strictly before 100): the final 2 units are never cut. -/
theorem segment_concrete_scenario :
    segmentSpans (lineM 100) [((0:ℚ),(0:ℚ)),(100,0)] ⟨5, 2, true⟩ =
      (List.range 14).map (fun k => (((7*k : ℕ) : ℚ), ((7*k+5 : ℕ) : ℚ)))
    ∧ segment (lineM 100) [((0:ℚ),(0:ℚ)),(100,0)] ⟨5, 2, true⟩ =
      (List.range 14).map (fun k => [(((7*k : ℕ) : ℚ), (0:ℚ)), (((7*k+5 : ℕ) : ℚ), (0:ℚ))])
    ∧ (∀ p ∈ segmentSpans (lineM 100) [((0:ℚ),(0:ℚ)),(100,0)] ⟨5, 2, true⟩,
        p.2 ≤ 98 ∧ p.2 < 100)
    ∧ (98:ℚ) < 100 :=
  of_decide_eq_true (by with_unfolding_all rfl)

/-- C8 counterexample: on a short path (length 3 ≤ cut_length) with a
failing sampler, `segment` returns the empty sequence — the polyline is
dropped, not returned unchanged. -/
theorem segment_failure_counterexample :
    segment (failM 3) [((0:ℚ),(0:ℚ)),(3,0)] ⟨5, 2, true⟩ = []
    ∧ segment (failM 3) [((0:ℚ),(0:ℚ)),(3,0)] ⟨5, 2, true⟩ ≠ [[((0:ℚ),(0:ℚ)),(3,0)]] :=
  of_decide_eq_true (by with_unfolding_all rfl)

/-- C8 (amended): extraction failure is fail-safe only in the general
(long-path) branch, where the empty emission falls back to the unmodified
polyline; in both short-path branches that attempt an extraction — the
trim-to-`L - B` branch (source line 152) and the single-cut branch for
`cut_length < L ≤ cut_length + bridge_length` (source line 162) — a failed
extraction yields the empty sequence instead, dropping the polyline. -/
theorem segment_failure_policy (pm : PathM) (poly : Polyline)
    (hfail : ∀ t, pm.pointAt t = none) (cfg : PerforationConfig)
    (hlen : 2 ≤ poly.length) (hB : 0 ≤ cfg.bridge_length) :
    (cfg.cut_length + cfg.bridge_length < pm.length → segment pm poly cfg = [poly])
    ∧ (pm.length ≤ cfg.cut_length → cfg.bridge_length < pm.length →
        cfg.start_with_cut = true → segment pm poly cfg = [])
    ∧ (cfg.cut_length < pm.length →
        pm.length ≤ cfg.cut_length + cfg.bridge_length →
        segment pm poly cfg = []) := by
  obtain ⟨C, B, swc⟩ := cfg
  dsimp only at hB ⊢
  have h1 : ¬ poly.length < 2 := not_lt.mpr hlen
  refine ⟨?_, ?_, ?_⟩
  · intro hL
    unfold segment apply_perforation
    dsimp only
    rw [if_neg h1, if_neg (not_le.mpr hL)]
    have hnil : ∀ eff : ℚ, emitLoop pm C B eff (stdFuel pm C B) 0 swc = [] := by
      intro eff
      rw [emitLoop_eq_filterMap]
      exact List.filterMap_eq_nil.mpr (fun a ha => extract_path_segment_fail hfail _ _)
    rw [hnil, if_pos rfl]
  · intro hLC hBL hswc
    subst hswc
    unfold segment apply_perforation
    dsimp only
    rw [if_neg h1, if_pos (by linarith : pm.length ≤ C + B), if_pos hLC, if_pos rfl,
      if_pos hBL, if_pos (by linarith : (0:ℚ) < pm.length - B),
      extract_path_segment_fail hfail]
  · intro hCL hLP
    unfold segment apply_perforation
    dsimp only
    rw [if_neg h1, if_pos hLP, if_neg (not_le.mpr hCL),
      extract_path_segment_fail hfail]

/-- C8 witness (general branch: failure returns the polyline unchanged). -/
theorem segment_failure_policy_witness :
    segment (failM 20) [((0:ℚ),(0:ℚ)),(20,0)] ⟨5, 2, true⟩ = [[((0:ℚ),(0:ℚ)),(20,0)]] :=
  (segment_failure_policy (failM 20) [((0:ℚ),(0:ℚ)),(20,0)] (fun t => rfl) ⟨5, 2, true⟩
    (by decide) (by norm_num)).1 (by norm_num [failM])

/-- C1: for a path strictly longer than one cut+bridge period (with positive
lengths and working measurement), every Segment `segment` emits covers an
arc interval ending strictly before the total length `L` — the final
stretch is left uncut, so the pattern always ends in a bridge, and the
whole-polyline fallback is not taken. -/
theorem segment_never_ends_mid_cut (pm : PathM) (poly : Polyline) (f : ℚ → Point)
    (hf : ∀ t, pm.pointAt t = some (f t)) (cfg : PerforationConfig)
    (hlen : 2 ≤ poly.length) (hC : 0 < cfg.cut_length) (hB : 0 < cfg.bridge_length)
    (hL : cfg.cut_length + cfg.bridge_length < pm.length) :
    segment pm poly cfg =
      (segmentSpans pm poly cfg).filterMap (fun p => extract_path_segment pm p.1 p.2)
    ∧ segmentSpans pm poly cfg ≠ []
    ∧ ∀ p ∈ segmentSpans pm poly cfg, p.2 < pm.length :=
  general_branch_main pm poly f hf cfg.start_with_cut
    (stdFuel pm cfg.cut_length cfg.bridge_length) hlen hC hB hL
    (stdFuel_ge pm cfg.cut_length cfg.bridge_length).2

/-- C1 witness. -/
theorem segment_never_ends_mid_cut_witness :
    segment (lineM 100) [((0:ℚ),(0:ℚ)),(100,0)] ⟨5, 2, true⟩ =
      (segmentSpans (lineM 100) [((0:ℚ),(0:ℚ)),(100,0)] ⟨5, 2, true⟩).filterMap
        (fun p => extract_path_segment (lineM 100) p.1 p.2)
    ∧ segmentSpans (lineM 100) [((0:ℚ),(0:ℚ)),(100,0)] ⟨5, 2, true⟩ ≠ []
    ∧ ∀ p ∈ segmentSpans (lineM 100) [((0:ℚ),(0:ℚ)),(100,0)] ⟨5, 2, true⟩,
        p.2 < (lineM 100).length :=
  segment_never_ends_mid_cut (lineM 100) [((0:ℚ),(0:ℚ)),(100,0)]
    (fun t => ((100:ℚ) * t, (0:ℚ))) (fun t => rfl) ⟨5, 2, true⟩ (by decide)
    (by norm_num) (by norm_num) (by norm_num [lineM])

end Perforation
